import Mathlib

/-!
Verification of the page-rendering pipeline of src/python/build_html.py.

The script renders one HTML page per (page, language) pair:
  page = base.replace('\x7bContent\x7d', content)
  page = page.replace('\x7b.name\x7d', filename)
  for key, value in lang.items(): page = page.replace('\x7b' + key + '\x7d', value)
  if re.search of an unresolved '\x7bkey\x7d' token: raise KeyError naming the key
  page = re.sub of keep-pass for conditional tags, then re.sub of strip-pass

Texts are modelled as List Char.  Python str.replace and re.sub both scan the
text left to right and never re-scan replacement text; both are modelled by a
single matcher-driven scanner, reSub.  The scanner is written with an explicit
fuel argument (the length of the text) so that every definition is structurally
recursive and evaluates in the kernel.
-/

namespace BuildHtml

/-- The character codes used in template syntax (written via Char.ofNat). -/
def lbrace : Char := Char.ofNat 123

def rbrace : Char := Char.ofNat 125

def dquote : Char := Char.ofNat 34

/-- A matcher decides whether a match begins at the head of the text.
On success it yields the replacement text and the text after the match. -/
def Matcher : Type := List Char → Option (List Char × List Char)

/-- A matcher consumes at least one character whenever it matches. -/
def Consumes (f : Matcher) : Prop :=
  ∀ s r rem, f s = some (r, rem) → rem.length < s.length

/-- Scanning substitution with fuel: at each position, if the matcher fires,
emit the replacement and continue after the match (the replacement is never
re-scanned); otherwise emit the head character and continue.  Models both
Python str.replace and re.sub for patterns that cannot match empty text. -/
def reSubFuel (f : Matcher) : Nat → List Char → List Char
  | 0, s => s
  | _ + 1, [] => []
  | n + 1, c :: rest =>
    match f (c :: rest) with
    | some (r, rem) => r ++ reSubFuel f n rem
    | none => c :: reSubFuel f n rest

/-- Scanning substitution over a whole text. -/
def reSub (f : Matcher) (s : List Char) : List Char :=
  reSubFuel f s.length s

/-- Matcher for Python str.replace with pattern pat and replacement rep:
fires exactly when the (nonempty) pattern is a prefix of the remaining text. -/
def replaceMatcher (pat rep : List Char) : Matcher := fun s =>
  if pat ≠ [] ∧ pat <+: s then some (rep, s.drop pat.length) else none

/-- Python str.replace(pat, rep): leftmost, non-overlapping, single pass. -/
def replaceAll (s pat rep : List Char) : List Char :=
  reSub (replaceMatcher pat rep) s

/-- The literal token replaced by the page content (source: '\x7bContent\x7d'). -/
def contentPat : List Char := String.toList "\x7bContent\x7d"

/-- Step 1 of the pipeline: base.replace('\x7bContent\x7d', content). -/
def contentInjection (base content : List Char) : List Char :=
  replaceAll base contentPat content

/-- The reserved page-name token (source: '\x7b.name\x7d'). -/
def namePat : List Char := String.toList "\x7b.name\x7d"

/-- Step 2 of the pipeline: page.replace('\x7b.name\x7d', filename). -/
def nameSubst (page pageName : List Char) : List Char :=
  replaceAll page namePat pageName

/-- The literal token for a dictionary key (source: '\x7b' + key + '\x7d'). -/
def keyToken (k : List Char) : List Char :=
  lbrace :: (k ++ [rbrace])

/-- Step 3: the loop  for key, value in lang.items(): page.replace(...).
The dictionary is an association list in iteration (insertion) order. -/
def keySubst (lang : List (List Char × List Char)) (page : List Char) : List Char :=
  lang.foldl (fun p kv => replaceAll p (keyToken kv.1) kv.2) page

/-- The character class of the completeness regex, [a-zA-Z0-9-.]. -/
def isKeyChar (c : Char) : Bool :=
  (('a' ≤ c) && (c ≤ 'z')) || (('A' ≤ c) && (c ≤ 'Z')) ||
    (('0' ≤ c) && (c ≤ '9')) || (c == '-') || (c == '.')

/-- Step 4: re.search of an unresolved token.  A match begins at a left brace
followed by a nonempty run of key characters followed by a right brace; the
leftmost match wins and the captured group is the run of key characters. -/
def findUnresolved : List Char → Option (List Char)
  | [] => none
  | c :: rest =>
    if c = lbrace ∧ rest.takeWhile isKeyChar ≠ [] ∧
        (rest.dropWhile isKeyChar).head? = some rbrace then
      some (rest.takeWhile isKeyChar)
    else findUnresolved rest

/-- Match the page name part of the keep-pass pattern.  The source builds the
regex by interpolating the page name unescaped, so each page-name character is
interpreted by the regex engine: a dot matches any character except a newline,
while the other characters of the alphanumeric/hyphen/dot/underscore page-name
charset match themselves.  Returns the text after the matched name. -/
def dropNamePat : List Char → List Char → Option (List Char)
  | [], s => some s
  | _ :: _, [] => none
  | p :: ps, c :: cs =>
    if p = '.' then (if c = '\n' then none else dropNamePat ps cs)
    else if p = c then dropNamePat ps cs else none

/-- Matcher for the keep pass: re.sub with pattern left-brace If"NAME"(body)
right-brace, body any run without a closing brace, NAME the interpolated page
name, and the group-1 backreference as replacement: on a match the replacement
is the captured body and the scan continues after the closing brace. -/
def matchKeepAt (name : List Char) : Matcher := fun s =>
  match s with
  | c1 :: c2 :: c3 :: c4 :: rest =>
    if c1 = lbrace ∧ c2 = 'I' ∧ c3 = 'f' ∧ c4 = dquote then
      match dropNamePat name rest with
      | some (c5 :: rest2) =>
        if c5 = dquote then
          match rest2.dropWhile (fun x => x != rbrace) with
          | c6 :: rest3 =>
            if c6 = rbrace then some (rest2.takeWhile (fun x => x != rbrace), rest3)
            else none
          | [] => none
        else none
      | some [] => none
      | none => none
    else none
  | _ => none

/-- Matcher for the strip pass  re.sub(r'\x7bIf"[^"]*"[^\x7d]*\x7d', '', page):
any remaining conditional tag is removed, body included. -/
def matchStripAt : Matcher := fun s =>
  match s with
  | c1 :: c2 :: c3 :: c4 :: rest =>
    if c1 = lbrace ∧ c2 = 'I' ∧ c3 = 'f' ∧ c4 = dquote then
      match rest.dropWhile (fun x => x != dquote) with
      | c5 :: rest2 =>
        if c5 = dquote then
          match rest2.dropWhile (fun x => x != rbrace) with
          | c6 :: rest3 => if c6 = rbrace then some ([], rest3) else none
          | [] => none
        else none
      | [] => none
    else none
  | _ => none

/-- Step 5: conditional resolution, keep pass then strip pass. -/
def resolveConds (pageName page : List Char) : List Char :=
  reSub matchStripAt (reSub (matchKeepAt pageName) page)

/-- The renderer: the five-step pipeline of the loop body of build_html.py.
On an unresolved token it fails carrying the captured key name (the KeyError),
producing no output. -/
def render (base content pageName : List Char)
    (lang : List (List Char × List Char)) : Except (List Char) (List Char) :=
  let page1 := contentInjection base content
  let page2 := nameSubst page1 pageName
  let page3 := keySubst lang page2
  match findUnresolved page3 with
  | some key => Except.error key
  | none => Except.ok (resolveConds pageName page3)

/-- Match the page name by exact character equality.  Modelled from the spec:
tag-name matching is exact string equality. -/
def dropNameExact : List Char → List Char → Option (List Char)
  | [], s => some s
  | _ :: _, [] => none
  | p :: ps, c :: cs => if p = c then dropNameExact ps cs else none

/-- Modelled from the spec: keep-pass matcher with exact tag-name equality,
for comparison with the source's interpolated-regex matcher. -/
def matchKeepSpecAt (name : List Char) : Matcher := fun s =>
  match s with
  | c1 :: c2 :: c3 :: c4 :: rest =>
    if c1 = lbrace ∧ c2 = 'I' ∧ c3 = 'f' ∧ c4 = dquote then
      match dropNameExact name rest with
      | some (c5 :: rest2) =>
        if c5 = dquote then
          match rest2.dropWhile (fun x => x != rbrace) with
          | c6 :: rest3 =>
            if c6 = rbrace then some (rest2.takeWhile (fun x => x != rbrace), rest3)
            else none
          | [] => none
        else none
      | some [] => none
      | none => none
    else none
  | _ => none

/-- Modelled from the spec: conditional resolution with exact tag-name
matching in the keep pass. -/
def resolveCondsSpec (pageName page : List Char) : List Char :=
  reSub matchStripAt (reSub (matchKeepSpecAt pageName) page)

/-- The fuel argument of reSubFuel is irrelevant once it covers the text. -/
lemma reSubFuel_eq_of_le (f : Matcher) (hf : Consumes f) :
    ∀ n m s, s.length ≤ n → s.length ≤ m → reSubFuel f n s = reSubFuel f m s := by
  intro n
  induction n with
  | zero =>
    intro m s hn _
    have hs : s = [] := List.eq_nil_of_length_eq_zero (Nat.le_zero.mp hn)
    subst hs
    cases m <;> rfl
  | succ n ih =>
    intro m s hn hm
    cases s with
    | nil => cases m <;> rfl
    | cons c rest =>
      cases m with
      | zero => simp at hm
      | succ m' =>
        show reSubFuel f (n + 1) (c :: rest) = reSubFuel f (m' + 1) (c :: rest)
        cases hfc : f (c :: rest) with
        | some pr =>
          obtain ⟨r, rem⟩ := pr
          have hlt := hf _ _ _ hfc
          simp only [List.length_cons] at hn hm hlt
          simp only [reSubFuel, hfc]
          rw [ih m' rem (by omega) (by omega)]
        | none =>
          simp only [List.length_cons] at hn hm
          simp only [reSubFuel, hfc]
          rw [ih m' rest (by omega) (by omega)]

lemma reSub_nil (f : Matcher) : reSub f [] = [] := rfl

/-- Unfolding reSub at a matching position. -/
lemma reSub_cons_some (f : Matcher) (hf : Consumes f) {c : Char} {rest r rem : List Char}
    (h : f (c :: rest) = some (r, rem)) :
    reSub f (c :: rest) = r ++ reSub f rem := by
  have hlt := hf _ _ _ h
  simp only [List.length_cons] at hlt
  show reSubFuel f (c :: rest).length (c :: rest) = _
  simp only [List.length_cons, reSubFuel, h]
  rw [reSubFuel_eq_of_le f hf rest.length rem.length rem (by omega) (by omega)]
  rfl

/-- Unfolding reSub at a non-matching position. -/
lemma reSub_cons_none (f : Matcher) {c : Char} {rest : List Char}
    (h : f (c :: rest) = none) :
    reSub f (c :: rest) = c :: reSub f rest := by
  show reSubFuel f (c :: rest).length (c :: rest) = _
  simp only [List.length_cons, reSubFuel, h]
  rfl

/-- If the matcher fires nowhere in the text, the substitution is the identity. -/
lemma reSub_id_of_none (f : Matcher) :
    ∀ s : List Char, (∀ c rest, (c :: rest) <:+ s → f (c :: rest) = none) →
      reSub f s = s := by
  intro s
  induction s with
  | nil => intro _; rfl
  | cons c rest ih =>
    intro h
    rw [reSub_cons_none f (h c rest (List.suffix_refl _))]
    rw [ih (fun c' r' hsuf => h c' r' (hsuf.trans (List.suffix_cons c rest)))]

lemma replaceMatcher_consumes (pat rep : List Char) :
    Consumes (replaceMatcher pat rep) := by
  intro s r rem h
  unfold replaceMatcher at h
  split at h
  case isTrue hc =>
    obtain ⟨hne, hpre⟩ := hc
    obtain ⟨rfl, rfl⟩ : rep = r ∧ s.drop pat.length = rem := by
      constructor <;> { injection h with h'; cases h'; rfl }
    have hlen : pat.length ≤ s.length := hpre.length_le
    have hpos : 0 < pat.length := List.length_pos.mpr hne
    rw [List.length_drop]
    omega
  case isFalse => cases h

lemma replaceAll_nil (pat rep : List Char) : replaceAll [] pat rep = [] := rfl

/-- str.replace at a position where the pattern matches. -/
lemma replaceAll_pos {pat : List Char} (rep : List Char) {c : Char} {rest : List Char}
    (hne : pat ≠ []) (hpre : pat <+: (c :: rest)) :
    replaceAll (c :: rest) pat rep = rep ++ replaceAll ((c :: rest).drop pat.length) pat rep := by
  unfold replaceAll
  exact reSub_cons_some _ (replaceMatcher_consumes pat rep)
    (by unfold replaceMatcher; rw [if_pos ⟨hne, hpre⟩])

/-- str.replace at a position where the pattern does not match. -/
lemma replaceAll_neg {pat : List Char} (rep : List Char) {c : Char} {rest : List Char}
    (h : ¬ pat <+: (c :: rest)) :
    replaceAll (c :: rest) pat rep = c :: replaceAll rest pat rep := by
  unfold replaceAll
  exact reSub_cons_none _ (by unfold replaceMatcher; rw [if_neg (fun hc => h hc.2)])

/-- A pattern that begins with a left brace matches nowhere in brace-free text,
so str.replace leaves such text unchanged. -/
lemma replaceAll_id {pat : List Char} (rep : List Char)
    (hpat : pat.head? = some lbrace) :
    ∀ s : List Char, lbrace ∉ s → replaceAll s pat rep = s := by
  intro s
  induction s with
  | nil => intro _; rfl
  | cons c rest ih =>
    intro hs
    have hc : c ≠ lbrace := fun h => hs (h ▸ List.mem_cons_self c rest)
    have hnp : ¬ pat <+: (c :: rest) := by
      intro hp
      obtain ⟨t, ht⟩ := hp
      cases pat with
      | nil => simp at hpat
      | cons p ps =>
        simp only [List.head?] at hpat
        injection hpat with hp'
        injection ht with h1 _
        exact hc (by rw [← h1, hp'])
    rw [replaceAll_neg rep hnp, ih (fun hm => hs (List.mem_cons_of_mem c hm))]

/-- str.replace substitutes at every occurrence of the pattern: splitting the
text at an occurrence preceded by brace-free text, the pattern is replaced
there and the scan continues after it; the inserted replacement is never
re-scanned, so it may even contain the pattern. -/
lemma replaceAll_append {pat : List Char} (rep b : List Char) {a : List Char}
    (hpat : pat.head? = some lbrace) (ha : lbrace ∉ a) :
    replaceAll (a ++ pat ++ b) pat rep = a ++ rep ++ replaceAll b pat rep := by
  induction a with
  | nil =>
    simp only [List.nil_append]
    obtain ⟨ps, rfl⟩ : ∃ ps, pat = lbrace :: ps := by
      cases pat with
      | nil => simp at hpat
      | cons p ps =>
        simp only [List.head?] at hpat
        injection hpat with hp'
        exact ⟨ps, by rw [hp']⟩
    rw [List.cons_append, replaceAll_pos rep (by simp) ⟨b, by simp⟩]
    rw [show List.drop (lbrace :: ps).length (lbrace :: (ps ++ b)) = b from by
      rw [← List.cons_append]; exact List.drop_left _ _]
  | cons c a' ih =>
    have hc : c ≠ lbrace := fun h => ha (h ▸ List.mem_cons_self c a')
    have hnp : ¬ pat <+: (c :: (a' ++ pat ++ b)) := by
      intro hp
      obtain ⟨t, ht⟩ := hp
      cases pat with
      | nil => simp at hpat
      | cons p ps =>
        simp only [List.head?] at hpat
        injection hpat with hp'
        injection ht with h1 _
        exact hc (by rw [← h1, hp'])
    simp only [List.cons_append]
    rw [replaceAll_neg rep (by simpa using hnp)]
    rw [ih (fun hm => ha (List.mem_cons_of_mem c hm))]

lemma takeWhile_all_append {p : Char → Bool} :
    ∀ (k : List Char) (x : Char) (b : List Char),
      (∀ c ∈ k, p c = true) → p x = false → (k ++ x :: b).takeWhile p = k := by
  intro k
  induction k with
  | nil => intro x b _ hx; simp [List.takeWhile_cons, hx]
  | cons c k' ih =>
    intro x b hk hx
    have hc : p c = true := hk c (List.mem_cons_self c k')
    simp only [List.cons_append, List.takeWhile_cons, hc, if_true]
    rw [ih x b (fun c' hc' => hk c' (List.mem_cons_of_mem c hc')) hx]

lemma dropWhile_all_append {p : Char → Bool} :
    ∀ (k : List Char) (x : Char) (b : List Char),
      (∀ c ∈ k, p c = true) → p x = false → (k ++ x :: b).dropWhile p = x :: b := by
  intro k
  induction k with
  | nil => intro x b _ hx; simp [List.dropWhile_cons, hx]
  | cons c k' ih =>
    intro x b hk hx
    have hc : p c = true := hk c (List.mem_cons_self c k')
    simp only [List.cons_append, List.dropWhile_cons, hc, if_true]
    exact ih x b (fun c' hc' => hk c' (List.mem_cons_of_mem c hc')) hx

lemma length_dropWhile_le' {p : Char → Bool} (l : List Char) :
    (l.dropWhile p).length ≤ l.length := by
  induction l with
  | nil => simp
  | cons c rest ih =>
    rw [List.dropWhile_cons]
    split
    · simpa using Nat.le_succ_of_le ih
    · simp

lemma isKeyChar_lbrace : isKeyChar lbrace = false := by decide

lemma isKeyChar_rbrace : isKeyChar rbrace = false := by decide

lemma isKeyChar_dquote : isKeyChar dquote = false := by decide

/-- The unresolved-token scan skips a character other than a left brace. -/
lemma findUnresolved_cons_ne {c : Char} (rest : List Char) (h : c ≠ lbrace) :
    findUnresolved (c :: rest) = findUnresolved rest := by
  conv_lhs => unfold findUnresolved
  rw [if_neg (fun hc => h hc.1)]

/-- The unresolved-token scan skips brace-free text entirely. -/
lemma findUnresolved_skip {s : List Char} (t : List Char) (hs : lbrace ∉ s) :
    findUnresolved (s ++ t) = findUnresolved t := by
  induction s with
  | nil => rfl
  | cons c rest ih =>
    have hc : c ≠ lbrace := fun h => hs (h ▸ List.mem_cons_self c rest)
    rw [List.cons_append, findUnresolved_cons_ne _ hc]
    exact ih (fun hm => hs (List.mem_cons_of_mem c hm))

/-- Whatever the scan reports is a nonempty run of key-class characters. -/
lemma findUnresolved_props :
    ∀ (s k : List Char), findUnresolved s = some k →
      k ≠ [] ∧ ∀ c ∈ k, isKeyChar c = true := by
  intro s
  induction s with
  | nil => intro k h; cases h
  | cons c rest ih =>
    intro k h
    unfold findUnresolved at h
    split at h
    case isTrue hc =>
      injection h with h'
      subst h'
      exact ⟨hc.2.1, fun c' hc' => List.mem_takeWhile_imp hc'⟩
    case isFalse => exact ih k h

/-- Unfolding equation for the completeness scan. -/
lemma findUnresolved_cons (c : Char) (rest : List Char) :
    findUnresolved (c :: rest) =
      if c = lbrace ∧ rest.takeWhile isKeyChar ≠ [] ∧
          (rest.dropWhile isKeyChar).head? = some rbrace then
        some (rest.takeWhile isKeyChar)
      else findUnresolved rest := by
  conv_lhs => unfold findUnresolved

/-- At the start of a well-formed token the scan captures exactly its key. -/
lemma findUnresolved_at_token {k : List Char} (b : List Char)
    (hk : k ≠ []) (hkc : ∀ c ∈ k, isKeyChar c = true) :
    findUnresolved (lbrace :: (k ++ rbrace :: b)) = some k := by
  rw [findUnresolved_cons,
      takeWhile_all_append k rbrace b hkc isKeyChar_rbrace,
      dropWhile_all_append k rbrace b hkc isKeyChar_rbrace]
  rw [if_pos ⟨rfl, hk, rfl⟩]

/-- A text containing a well-formed token never passes the completeness scan. -/
lemma findUnresolved_token_ne_none :
    ∀ (a : List Char) {k : List Char} (b : List Char), k ≠ [] →
      (∀ c ∈ k, isKeyChar c = true) →
      findUnresolved (a ++ lbrace :: (k ++ rbrace :: b)) ≠ none := by
  intro a
  induction a with
  | nil =>
    intro k b hk hkc
    rw [List.nil_append, findUnresolved_at_token b hk hkc]
    simp
  | cons c a' ih =>
    intro k b hk hkc
    rw [List.cons_append, findUnresolved_cons]
    split
    · simp
    · exact ih b hk hkc

/-- The completeness scan reports the leftmost token: if the text before a
token contains no token of its own, the scan captures that token's key. -/
lemma findUnresolved_leftmost :
    ∀ (a : List Char) {k : List Char} (b : List Char),
      findUnresolved a = none → k ≠ [] → (∀ c ∈ k, isKeyChar c = true) →
      findUnresolved (a ++ lbrace :: (k ++ rbrace :: b)) = some k := by
  intro a
  induction a with
  | nil =>
    intro k b _ hk hkc
    rw [List.nil_append]
    exact findUnresolved_at_token b hk hkc
  | cons c a' ih =>
    intro k b ha hk hkc
    rw [findUnresolved_cons] at ha
    split at ha
    case isTrue => cases ha
    case isFalse hcond =>
      rw [List.cons_append, findUnresolved_cons]
      rw [if_neg ?hconcat]
      · exact ih b ha hk hkc
      case hconcat =>
        rintro ⟨hc, hrun, hhd⟩
        subst hc
        by_cases hall : ∀ x ∈ a', isKeyChar x = true
        · have hdwnil : a'.dropWhile isKeyChar = [] := List.dropWhile_eq_nil_iff.mpr hall
          rw [List.dropWhile_append, if_pos (by rw [hdwnil]; rfl)] at hhd
          rw [List.dropWhile_cons, isKeyChar_lbrace] at hhd
          simp only [Bool.false_eq_true, if_false, List.head?] at hhd
          injection hhd with hbr
          exact absurd hbr (by decide)
        · have hdwne : a'.dropWhile isKeyChar ≠ [] :=
            fun h => hall (List.dropWhile_eq_nil_iff.mp h)
          have htwlen : ¬ (a'.takeWhile isKeyChar).length = a'.length := by
            intro hlen
            exact hall (List.takeWhile_eq_self_iff.mp
              ((List.takeWhile_sublist isKeyChar).eq_of_length hlen))
          rw [List.takeWhile_append, if_neg htwlen] at hrun
          rw [List.dropWhile_append,
              if_neg (by rw [Bool.not_eq_true, List.isEmpty_eq_false]; exact hdwne),
              List.head?_append_of_ne_nil _ hdwne] at hhd
          exact hcond ⟨rfl, hrun, hhd⟩

lemma dropNamePat_length :
    ∀ (name s rest1 : List Char), dropNamePat name s = some rest1 →
      rest1.length ≤ s.length := by
  intro name
  induction name with
  | nil =>
    intro s rest1 h
    injection h with h'
    subst h'
    exact le_refl _
  | cons p ps ih =>
    intro s rest1 h
    cases s with
    | nil => cases h
    | cons c cs =>
      unfold dropNamePat at h
      split at h
      · split at h
        · cases h
        · exact (ih cs rest1 h).trans (Nat.le_succ _)
      · split at h
        · exact (ih cs rest1 h).trans (Nat.le_succ _)
        · cases h

lemma dropNameExact_length :
    ∀ (name s rest1 : List Char), dropNameExact name s = some rest1 →
      rest1.length ≤ s.length := by
  intro name
  induction name with
  | nil =>
    intro s rest1 h
    injection h with h'
    subst h'
    exact le_refl _
  | cons p ps ih =>
    intro s rest1 h
    cases s with
    | nil => cases h
    | cons c cs =>
      unfold dropNameExact at h
      split at h
      · exact (ih cs rest1 h).trans (Nat.le_succ _)
      · cases h

lemma matchKeepAt_consumes (name : List Char) : Consumes (matchKeepAt name) := by
  intro s r rem h
  cases s with
  | nil => simp [matchKeepAt] at h
  | cons c1 s1 =>
  cases s1 with
  | nil => simp [matchKeepAt] at h
  | cons c2 s2 =>
  cases s2 with
  | nil => simp [matchKeepAt] at h
  | cons c3 s3 =>
  cases s3 with
  | nil => simp [matchKeepAt] at h
  | cons c4 rest =>
  simp only [matchKeepAt] at h
  split at h
  · cases hdn : dropNamePat name rest with
    | none => simp [hdn] at h
    | some rest1 =>
      have hlen1 : rest1.length ≤ rest.length := dropNamePat_length name rest rest1 hdn
      cases rest1 with
      | nil => simp [hdn] at h
      | cons c5 rest2 =>
        simp only [hdn] at h
        split at h
        · cases hdw : rest2.dropWhile (fun x => x != rbrace) with
          | nil => simp [hdw] at h
          | cons c6 rest3 =>
            simp only [hdw] at h
            split at h
            · injection h with h'
              rw [Prod.mk.injEq] at h'
              obtain ⟨-, rfl⟩ := h'
              have h3 : rest3.length + 1 ≤ rest2.length := by
                have := length_dropWhile_le' (p := fun x => x != rbrace) rest2
                rw [hdw] at this
                simpa using this
              simp only [List.length_cons] at hlen1 ⊢
              omega
            · cases h
        · cases h
  · cases h

lemma matchStripAt_consumes : Consumes matchStripAt := by
  intro s r rem h
  cases s with
  | nil => simp [matchStripAt] at h
  | cons c1 s1 =>
  cases s1 with
  | nil => simp [matchStripAt] at h
  | cons c2 s2 =>
  cases s2 with
  | nil => simp [matchStripAt] at h
  | cons c3 s3 =>
  cases s3 with
  | nil => simp [matchStripAt] at h
  | cons c4 rest =>
  simp only [matchStripAt] at h
  split at h
  · cases hdw1 : rest.dropWhile (fun x => x != dquote) with
    | nil => simp [hdw1] at h
    | cons c5 rest2 =>
      simp only [hdw1] at h
      have hlen1 : rest2.length + 1 ≤ rest.length := by
        have := length_dropWhile_le' (p := fun x => x != dquote) rest
        rw [hdw1] at this
        simpa using this
      split at h
      · cases hdw2 : rest2.dropWhile (fun x => x != rbrace) with
        | nil => simp [hdw2] at h
        | cons c6 rest3 =>
          simp only [hdw2] at h
          split at h
          · injection h with h'
            rw [Prod.mk.injEq] at h'
            obtain ⟨-, rfl⟩ := h'
            have h3 : rest3.length + 1 ≤ rest2.length := by
              have := length_dropWhile_le' (p := fun x => x != rbrace) rest2
              rw [hdw2] at this
              simpa using this
            simp only [List.length_cons]
            omega
          · cases h
      · cases h
  · cases h

lemma matchKeepSpecAt_consumes (name : List Char) : Consumes (matchKeepSpecAt name) := by
  intro s r rem h
  cases s with
  | nil => simp [matchKeepSpecAt] at h
  | cons c1 s1 =>
  cases s1 with
  | nil => simp [matchKeepSpecAt] at h
  | cons c2 s2 =>
  cases s2 with
  | nil => simp [matchKeepSpecAt] at h
  | cons c3 s3 =>
  cases s3 with
  | nil => simp [matchKeepSpecAt] at h
  | cons c4 rest =>
  simp only [matchKeepSpecAt] at h
  split at h
  · cases hdn : dropNameExact name rest with
    | none => simp [hdn] at h
    | some rest1 =>
      have hlen1 : rest1.length ≤ rest.length := dropNameExact_length name rest rest1 hdn
      cases rest1 with
      | nil => simp [hdn] at h
      | cons c5 rest2 =>
        simp only [hdn] at h
        split at h
        · cases hdw : rest2.dropWhile (fun x => x != rbrace) with
          | nil => simp [hdw] at h
          | cons c6 rest3 =>
            simp only [hdw] at h
            split at h
            · injection h with h'
              rw [Prod.mk.injEq] at h'
              obtain ⟨-, rfl⟩ := h'
              have h3 : rest3.length + 1 ≤ rest2.length := by
                have := length_dropWhile_le' (p := fun x => x != rbrace) rest2
                rw [hdw] at this
                simpa using this
              simp only [List.length_cons] at hlen1 ⊢
              omega
            · cases h
        · cases h
  · cases h

/-- Does either conditional-tag pattern match anywhere in the text? -/
def anyCondMatch (name : List Char) : List Char → Bool
  | [] => false
  | c :: rest =>
    (matchKeepAt name (c :: rest)).isSome || (matchStripAt (c :: rest)).isSome ||
      anyCondMatch name rest

lemma anyCondMatch_false :
    ∀ (s : List Char), anyCondMatch name s = false →
      ∀ c rest, (c :: rest) <:+ s →
        matchKeepAt name (c :: rest) = none ∧ matchStripAt (c :: rest) = none := by
  intro s
  induction s with
  | nil =>
    intro _ c rest hsuf
    cases List.suffix_nil.mp hsuf
  | cons a s' ih =>
    intro h c rest hsuf
    simp only [anyCondMatch, Bool.or_eq_false_iff] at h
    obtain ⟨⟨hk, hs⟩, hrest⟩ := h
    rw [← Bool.not_eq_true, Option.not_isSome_iff_eq_none] at hk hs
    rcases List.suffix_cons_iff.mp hsuf with heq | hsuf'
    · obtain ⟨rfl, rfl⟩ : c = a ∧ rest = s' := by
        injection heq with h1 h2
        exact ⟨h1, h2⟩
      exact ⟨hk, hs⟩
    · exact ih hrest c rest hsuf'

/-- If neither pass finds a tag anywhere in a text, conditional resolution
leaves it unchanged. -/
lemma resolveConds_id {name s : List Char} (h : anyCondMatch name s = false) :
    resolveConds name s = s := by
  have hall := anyCondMatch_false s h
  unfold resolveConds
  rw [reSub_id_of_none (matchKeepAt name) s (fun c rest hsuf => (hall c rest hsuf).1)]
  exact reSub_id_of_none matchStripAt s (fun c rest hsuf => (hall c rest hsuf).2)

/-- Join a list of text segments with a separator between consecutive pieces,
modelling a text whose separator occurrences are exactly the listed ones. -/
def joinWith (sep : List Char) : List (List Char) → List Char
  | [] => []
  | [s] => s
  | s :: rest => s ++ sep ++ joinWith sep rest

lemma mem_joinWith {x : Char} {sep : List Char} :
    ∀ (segs : List (List Char)), x ∈ joinWith sep segs →
      (∃ s ∈ segs, x ∈ s) ∨ x ∈ sep := by
  intro segs
  induction segs with
  | nil => intro h; cases h
  | cons s rest ih =>
    intro h
    cases rest with
    | nil =>
      left
      exact ⟨s, List.mem_cons_self s [], h⟩
    | cons s' rest' =>
      simp only [joinWith, List.append_assoc, List.mem_append] at h
      rcases h with h | h | h
      · exact Or.inl ⟨s, List.mem_cons_self _ _, h⟩
      · exact Or.inr h
      · rcases ih h with ⟨t, ht, hx⟩ | hx
        · exact Or.inl ⟨t, List.mem_cons_of_mem s ht, hx⟩
        · exact Or.inr hx

/-- str.replace on a text whose pattern occurrences are exactly the joins:
every occurrence is replaced, and replacement text is never re-scanned. -/
lemma replaceAll_joinWith {pat : List Char} (rep : List Char)
    (hpat : pat.head? = some lbrace) :
    ∀ (segs : List (List Char)), (∀ s ∈ segs, lbrace ∉ s) →
      replaceAll (joinWith pat segs) pat rep = joinWith rep segs := by
  intro segs
  induction segs with
  | nil => intro _; rfl
  | cons s rest ih =>
    intro hsegs
    cases rest with
    | nil =>
      exact replaceAll_id rep hpat s (hsegs s (List.mem_cons_self s []))
    | cons s' rest' =>
      show replaceAll (s ++ pat ++ joinWith pat (s' :: rest')) pat rep = _
      rw [replaceAll_append rep _ hpat (hsegs s (List.mem_cons_self _ _))]
      rw [ih (fun t ht => hsegs t (List.mem_cons_of_mem s ht))]
      rfl

/-- A piece of authored template text: either plain text or a conditional tag
with a tag name and a body. -/
inductive Piece where
  | text : List Char → Piece
  | tag : List Char → List Char → Piece

/-- The concrete text of a piece; a tag renders as its source form
left-brace I f quote name quote body right-brace. -/
def Piece.flat : Piece → List Char
  | .text s => s
  | .tag n b => lbrace :: 'I' :: 'f' :: dquote :: (n ++ dquote :: (b ++ [rbrace]))

/-- Well-formedness: plain text is brace-free; a tag name is brace-free and
quote-free and a tag body is brace-free (the grammar forbids braces inside). -/
def Piece.wf : Piece → Prop
  | .text s => lbrace ∉ s
  | .tag n b => lbrace ∉ n ∧ dquote ∉ n ∧ lbrace ∉ b ∧ rbrace ∉ b

instance : DecidablePred Piece.wf := fun p =>
  match p with
  | .text s => inferInstanceAs (Decidable (lbrace ∉ s))
  | .tag n b =>
    inferInstanceAs (Decidable (lbrace ∉ n ∧ dquote ∉ n ∧ lbrace ∉ b ∧ rbrace ∉ b))

/-- The full text of a document made of pieces. -/
def flatten : List Piece → List Char
  | [] => []
  | p :: rest => p.flat ++ flatten rest

/-- The completeness scan does not fire at or inside a well-formed conditional
tag: at its opening brace the key run is the two letters I f, which are
followed by a quote rather than a closing brace. -/
lemma findUnresolved_tag_skip {n b : List Char} (t : List Char)
    (hn : lbrace ∉ n) (hb : lbrace ∉ b) :
    findUnresolved (Piece.flat (.tag n b) ++ t) = findUnresolved t := by
  show findUnresolved
      (lbrace :: 'I' :: 'f' :: dquote :: ((n ++ dquote :: (b ++ [rbrace])) ++ t)) = _
  rw [findUnresolved_cons]
  rw [if_neg ?tagcond]
  case tagcond =>
    rintro ⟨-, -, hhd⟩
    rw [show ('I' :: 'f' :: dquote :: ((n ++ dquote :: (b ++ [rbrace])) ++ t)).dropWhile
          isKeyChar = dquote :: ((n ++ dquote :: (b ++ [rbrace])) ++ t) from by
      rw [List.dropWhile_cons, List.dropWhile_cons, List.dropWhile_cons]
      simp [isKeyChar_dquote, show isKeyChar 'I' = true from by decide,
        show isKeyChar 'f' = true from by decide]] at hhd
    simp only [List.head?] at hhd
    injection hhd with hq
    exact absurd hq (by decide)
  rw [findUnresolved_cons_ne _ (by decide), findUnresolved_cons_ne _ (by decide),
      findUnresolved_cons_ne _ (by decide)]
  rw [show (n ++ dquote :: (b ++ [rbrace])) ++ t = n ++ (dquote :: (b ++ (rbrace :: t)))
      from by simp]
  rw [findUnresolved_skip _ hn, findUnresolved_cons_ne _ (by decide),
      findUnresolved_skip _ hb, findUnresolved_cons_ne _ (by decide)]

/-- A document of well-formed pieces passes the completeness scan. -/
lemma findUnresolved_flatten :
    ∀ (doc : List Piece), (∀ p ∈ doc, p.wf) → findUnresolved (flatten doc) = none := by
  intro doc
  induction doc with
  | nil => intro _; rfl
  | cons p rest ih =>
    intro hwf
    have hp := hwf p (List.mem_cons_self p rest)
    have hrest := ih (fun q hq => hwf q (List.mem_cons_of_mem p hq))
    show findUnresolved (p.flat ++ flatten rest) = none
    cases p with
    | text s =>
      rw [show Piece.flat (.text s) = s from rfl, findUnresolved_skip _ hp]
      exact hrest
    | tag n b =>
      obtain ⟨hn, -, hb, -⟩ := hp
      rw [findUnresolved_tag_skip _ hn hb]
      exact hrest

/-- C1: end-to-end rendering: for base <html>\x7bContent\x7d</html>, content
<p>\x7bgreeting\x7d, \x7b.name\x7d!</p>\x7bIf"index"<b>Home</b>\x7d\x7bIf"about"<b>About</b>\x7d,
page name index and dictionary greeting maps-to Hello, the five-step pipeline
returns exactly <html><p>Hello, index!</p><b>Home</b></html>. -/
theorem c1_end_to_end :
    render (String.toList "<html>\x7bContent\x7d</html>")
        (String.toList
          "<p>\x7bgreeting\x7d, \x7b.name\x7d!</p>\x7bIf\x22index\x22<b>Home</b>\x7d\x7bIf\x22about\x22<b>About</b>\x7d")
        (String.toList "index")
        [(String.toList "greeting", String.toList "Hello")] =
      Except.ok (String.toList "<html><p>Hello, index!</p><b>Home</b></html>") := by
  rfl

/-- C2: completeness enforcement: whenever the working text after content
injection, name substitution and key substitution still contains a token of
the generic form left-brace key right-brace (key a nonempty run of letters,
digits, hyphen, dot), render fails with an error carrying an unresolved key
name and produces no partial output. -/
theorem c2_completeness_enforcement
    (base content pageName : List Char) (lang : List (List Char × List Char))
    (a k b : List Char)
    (hsplit : keySubst lang (nameSubst (contentInjection base content) pageName) =
      a ++ lbrace :: (k ++ rbrace :: b))
    (hk : k ≠ []) (hkc : ∀ c ∈ k, isKeyChar c = true) :
    ∃ key, render base content pageName lang = Except.error key ∧ key ≠ [] ∧
      ∀ c ∈ key, isKeyChar c = true := by
  have hne := findUnresolved_token_ne_none a b hk hkc
  rw [← hsplit] at hne
  cases hfu : findUnresolved
      (keySubst lang (nameSubst (contentInjection base content) pageName)) with
  | none => exact absurd hfu hne
  | some key =>
    obtain ⟨hkne, hkc'⟩ := findUnresolved_props _ key hfu
    refine ⟨key, ?_, hkne, hkc'⟩
    simp only [render, hfu]

/-- Witness for c2: the end-to-end scenario with an empty dictionary fails
naming greeting. -/
theorem c2_witness :
    render (String.toList "<html>\x7bContent\x7d</html>")
        (String.toList
          "<p>\x7bgreeting\x7d, \x7b.name\x7d!</p>\x7bIf\x22index\x22<b>Home</b>\x7d\x7bIf\x22about\x22<b>About</b>\x7d")
        (String.toList "index") [] =
      Except.error (String.toList "greeting") ∧
    ∃ key,
      render (String.toList "<html>\x7bContent\x7d</html>")
          (String.toList
            "<p>\x7bgreeting\x7d, \x7b.name\x7d!</p>\x7bIf\x22index\x22<b>Home</b>\x7d\x7bIf\x22about\x22<b>About</b>\x7d")
          (String.toList "index") [] = Except.error key ∧ key ≠ [] ∧
        ∀ c ∈ key, isKeyChar c = true := by
  refine ⟨rfl, c2_completeness_enforcement _ _ _ _
    (String.toList "<html><p>") (String.toList "greeting")
    (String.toList
      ", index!</p>\x7bIf\x22index\x22<b>Home</b>\x7d\x7bIf\x22about\x22<b>About</b>\x7d</html>")
    (by rfl) (by decide) (by decide)⟩

/-- C4 counterexample: content injection does NOT leave later occurrences in
place: a base consisting of two content tokens has both replaced (Python
str.replace replaces every occurrence), so the claimed result of replacing
only the first occurrence is wrong. -/
theorem c4_counterexample :
    contentInjection (String.toList "\x7bContent\x7d\x7bContent\x7d")
        (String.toList "X") = String.toList "XX" ∧
    String.toList "XX" ≠ String.toList "X\x7bContent\x7d" :=
  ⟨rfl, by decide⟩

/-- C4 amended: content injection substitutes the page content for every
occurrence of the content token, scanning left to right; inserted content is
not itself re-scanned. -/
theorem c4_replaces_every_occurrence (content b : List Char) {a : List Char}
    (ha : lbrace ∉ a) :
    contentInjection (a ++ contentPat ++ b) content =
      a ++ content ++ contentInjection b content :=
  replaceAll_append content b rfl ha

/-- Witness for c4 at a concrete base split. -/
theorem c4_witness :
    lbrace ∉ String.toList "<html>" ∧
    contentInjection (String.toList "<html>" ++ contentPat ++ String.toList "</html>")
        (String.toList "BODY") =
      String.toList "<html>" ++ String.toList "BODY" ++
        contentInjection (String.toList "</html>") (String.toList "BODY") :=
  ⟨by decide, c4_replaces_every_occurrence _ _ (by decide)⟩

/-- C5 counterexample: a token contained in an inserted value IS substituted
when its key occurs later in dictionary order: with the ordered dictionary
a maps-to token-b, b maps-to V, the text token-a renders to V rather than
staying token-b as the claim requires. -/
theorem c5_counterexample :
    keySubst [(String.toList "a", String.toList "\x7bb\x7d"),
        (String.toList "b", String.toList "V")] (String.toList "\x7ba\x7d") =
      String.toList "V" ∧
    String.toList "V" ≠ String.toList "\x7bb\x7d" :=
  ⟨rfl, by decide⟩

/-- C5 amended: key substitution is one pass per (key, value) pair, applied
sequentially in dictionary order; within a single key's pass the inserted
value is never re-scanned by that pass, even when the value contains that very
key's token.  (Cross-key re-substitution by later passes does occur.) -/
theorem c5_single_pass_per_key (k v b : List Char) {a : List Char}
    (ha : lbrace ∉ a) :
    keySubst [(k, v)] (a ++ keyToken k ++ b) =
      a ++ v ++ keySubst [(k, v)] b := by
  show replaceAll (a ++ keyToken k ++ b) (keyToken k) v = _
  exact replaceAll_append v b rfl ha

/-- Witness for c5: a value containing its own key's token is inserted once
and not expanded again by that pass. -/
theorem c5_witness :
    lbrace ∉ ([] : List Char) ∧
    keySubst [(String.toList "a", String.toList "\x7ba\x7d")]
        ([] ++ keyToken (String.toList "a") ++ []) =
      [] ++ String.toList "\x7ba\x7d" ++
        keySubst [(String.toList "a", String.toList "\x7ba\x7d")] [] :=
  ⟨by decide, c5_single_pass_per_key _ _ _ (by decide)⟩

/-- C6 counterexample: the render result is NOT independent of the dictionary
and a dictionary entry keyed .name CAN override: on the text
a left-brace .na left-brace .name right-brace right-brace b with page name me,
name substitution splices the leftover fragments into a new reserved token
(the text becomes a left-brace .name right-brace b), after which the pipeline
errors on the empty dictionary but succeeds with aXb when the dictionary maps
.name to X - the spliced token is substituted from the dictionary. -/
theorem c6_counterexample :
    nameSubst (String.toList "a\x7b.na\x7b.name\x7d\x7db") (String.toList "me") =
      String.toList "a\x7b.name\x7db" ∧
    render (String.toList "\x7bContent\x7d")
        (String.toList "a\x7b.na\x7b.name\x7d\x7db") (String.toList "me")
        [(String.toList ".name", String.toList "X")] =
      Except.ok (String.toList "aXb") ∧
    render (String.toList "\x7bContent\x7d")
        (String.toList "a\x7b.na\x7b.name\x7d\x7db") (String.toList "me") [] =
      Except.error (String.toList ".name") ∧
    Except.ok (String.toList "aXb") ≠
      (Except.error (String.toList ".name") :
        Except (List Char) (List Char)) :=
  ⟨rfl, rfl, rfl, fun h => Except.noConfusion h⟩

/-- C6 amended: name substitution replaces every (leftmost, non-overlapping)
occurrence of the reserved token with exactly the page name, and the step
itself takes no dictionary input.  Independence of the dictionary holds only
when no new reserved token is spliced together by the replacement: for a text
whose brace constructs are exactly its name tokens (brace-free segments) and
a brace-free page name, a later str.replace pass for the .name key leaves the
substituted text unchanged, whatever value the dictionary carries; in general
a spliced token is substituted from the dictionary, as the counterexample
shows. -/
theorem c6_name_substitution (segs : List (List Char)) (n v : List Char)
    (hsegs : ∀ s ∈ segs, lbrace ∉ s) (hn : lbrace ∉ n) :
    nameSubst (joinWith namePat segs) n = joinWith n segs ∧
    replaceAll (joinWith n segs) (keyToken (String.toList ".name")) v =
      joinWith n segs := by
  refine ⟨@replaceAll_joinWith namePat n (by rfl) segs hsegs, ?_⟩
  apply @replaceAll_id (keyToken (String.toList ".name")) v (by rfl)
  intro hmem
  rcases mem_joinWith segs hmem with h | h
  · obtain ⟨s, hs, hx⟩ := h
    exact hsegs s hs hx
  · exact hn h

/-- Witness for c6 at a concrete page split and page name. -/
theorem c6_witness :
    (∀ s ∈ [String.toList "<p>", String.toList ", ", String.toList "!</p>"],
      lbrace ∉ s) ∧
    (nameSubst
        (joinWith namePat
          [String.toList "<p>", String.toList ", ", String.toList "!</p>"])
        (String.toList "index") =
      joinWith (String.toList "index")
        [String.toList "<p>", String.toList ", ", String.toList "!</p>"] ∧
    replaceAll
        (joinWith (String.toList "index")
          [String.toList "<p>", String.toList ", ", String.toList "!</p>"])
        (keyToken (String.toList ".name")) (String.toList "HACK") =
      joinWith (String.toList "index")
        [String.toList "<p>", String.toList ", ", String.toList "!</p>"]) :=
  ⟨by decide, c6_name_substitution
    [String.toList "<p>", String.toList ", ", String.toList "!</p>"]
    (String.toList "index") (String.toList "HACK") (by decide) (by decide)⟩

/-- C7 counterexample: conditional resolution is not idempotent: stripping the
inner tag of the text left-brace I f left-brace If"a"b right-brace "c"d
right-brace splices the surrounding characters into the new tag If"c"d, which
only a second application removes. -/
theorem c7_counterexample :
    resolveConds (String.toList "z")
        (String.toList "\x7bIf\x7bIf\x22a\x22b\x7d\x22c\x22d\x7d") =
      String.toList "\x7bIf\x22c\x22d\x7d" ∧
    resolveConds (String.toList "z")
        (resolveConds (String.toList "z")
          (String.toList "\x7bIf\x7bIf\x22a\x22b\x7d\x22c\x22d\x7d")) ≠
      resolveConds (String.toList "z")
        (String.toList "\x7bIf\x7bIf\x22a\x22b\x7d\x22c\x22d\x7d") :=
  ⟨rfl, by decide⟩

/-- C7 amended: conditional resolution applied to its own output is the
identity provided the first output contains no match of either conditional-tag
pattern; the proviso is needed because a strip-pass removal can concatenate
surrounding text into a new tag. -/
theorem c7_idempotent_of_no_tags (name s : List Char)
    (h : anyCondMatch name (resolveConds name s) = false) :
    resolveConds name (resolveConds name s) = resolveConds name s :=
  resolveConds_id h

/-- Witness for c7: the end-to-end page resolves once and is then stable. -/
theorem c7_witness :
    anyCondMatch (String.toList "home")
        (resolveConds (String.toList "home")
          (String.toList "\x7bIf\x22home\x22Welcome!\x7d\x7bIf\x22other\x22Secret\x7d")) =
      false ∧
    resolveConds (String.toList "home")
        (resolveConds (String.toList "home")
          (String.toList "\x7bIf\x22home\x22Welcome!\x7d\x7bIf\x22other\x22Secret\x7d")) =
      resolveConds (String.toList "home")
        (String.toList "\x7bIf\x22home\x22Welcome!\x7d\x7bIf\x22other\x22Secret\x7d") :=
  ⟨rfl, c7_idempotent_of_no_tags (String.toList "home")
    (String.toList "\x7bIf\x22home\x22Welcome!\x7d\x7bIf\x22other\x22Secret\x7d") rfl⟩

/-- C8: determinism: the rendered result is a function of exactly the four
arguments - two calls with identical base, content, page name and dictionary
yield the identical output or the identical error.  (The model render is a
pure total function, mirroring that the source's pipeline reads nothing but
these inputs and performs no other observable effect.) -/
theorem c8_deterministic (b1 b2 c1 c2 n1 n2 : List Char)
    (d1 d2 : List (List Char × List Char))
    (hb : b1 = b2) (hc : c1 = c2) (hn : n1 = n2) (hd : d1 = d2) :
    render b1 c1 n1 d1 = render b2 c2 n2 d2 := by
  rw [hb, hc, hn, hd]

/-- Witness for c8 at the end-to-end input. -/
theorem c8_witness :
    render (String.toList "<html>\x7bContent\x7d</html>")
        (String.toList "<p>\x7bgreeting\x7d!</p>") (String.toList "index")
        [(String.toList "greeting", String.toList "Hello")] =
      render (String.toList "<html>\x7bContent\x7d</html>")
        (String.toList "<p>\x7bgreeting\x7d!</p>") (String.toList "index")
        [(String.toList "greeting", String.toList "Hello")] :=
  c8_deterministic _ _ _ _ _ _ _ _ rfl rfl rfl rfl

/-- C9: leftmost offending key: when the substituted page splits as a prefix
in which the completeness scan finds nothing, followed by a token with key k,
render fails carrying exactly k - the first unresolved token in left-to-right
order - whatever tokens follow. -/
theorem c9_leftmost_key
    (base content pageName : List Char) (lang : List (List Char × List Char))
    (a k b : List Char)
    (hsplit : keySubst lang (nameSubst (contentInjection base content) pageName) =
      a ++ lbrace :: (k ++ rbrace :: b))
    (ha : findUnresolved a = none) (hk : k ≠ [])
    (hkc : ∀ c ∈ k, isKeyChar c = true) :
    render base content pageName lang = Except.error k := by
  have h := findUnresolved_leftmost a b ha hk hkc
  simp only [render, hsplit, h]

/-- Witness for c9: with two unresolved tokens the first one is named. -/
theorem c9_witness :
    render (String.toList "\x7bContent\x7d")
        (String.toList "<p>\x7bgreeting\x7d and \x7bother\x7d</p>")
        (String.toList "x") [] =
      Except.error (String.toList "greeting") :=
  c9_leftmost_key _ _ _ _ (String.toList "<p>") (String.toList "greeting")
    (String.toList " and \x7bother\x7d</p>") rfl rfl (by decide) (by decide)

/-- C10: well-formed conditional tags survive the completeness check: the
unresolved-token pattern never fires at a tag (the quote after the two key
characters I f falls outside the key charset), so a text whose only brace
constructs are well-formed conditional tags passes the scan; when the
substituted page takes this form, render succeeds and hands the text intact
to conditional resolution. -/
theorem c10_conditional_tags_survive (doc : List Piece)
    (hwf : ∀ p ∈ doc, p.wf) :
    findUnresolved (flatten doc) = none ∧
    ∀ base content pageName lang,
      keySubst lang (nameSubst (contentInjection base content) pageName) =
        flatten doc →
      render base content pageName lang =
        Except.ok (resolveConds pageName (flatten doc)) := by
  have h := findUnresolved_flatten doc hwf
  refine ⟨h, ?_⟩
  intro base content pageName lang hsplit
  simp only [render, hsplit, h]

/-- Witness for c10 at a concrete two-piece document. -/
theorem c10_witness :
    (∀ p ∈ [Piece.text (String.toList "<b>x</b>"),
        Piece.tag (String.toList "home") (String.toList "Hi")], Piece.wf p) ∧
    findUnresolved (flatten [Piece.text (String.toList "<b>x</b>"),
        Piece.tag (String.toList "home") (String.toList "Hi")]) = none ∧
    render (flatten [Piece.text (String.toList "<b>x</b>"),
          Piece.tag (String.toList "home") (String.toList "Hi")])
        (String.toList "c") (String.toList "home") [] =
      Except.ok (resolveConds (String.toList "home")
        (flatten [Piece.text (String.toList "<b>x</b>"),
          Piece.tag (String.toList "home") (String.toList "Hi")])) := by
  have h := c10_conditional_tags_survive
    [Piece.text (String.toList "<b>x</b>"),
      Piece.tag (String.toList "home") (String.toList "Hi")] (by decide)
  exact ⟨by decide, h.1, h.2 _ _ _ _ rfl⟩

/-- C3: tag-name matching in the source is not exact string equality: the page
name is interpolated unescaped into the keep-pass regex, where a dot matches
any character, so page name a.c keeps the tag named abc (output X), while the
spec-modelled exact-equality resolution strips it (output empty).  The claim's
concrete keep and strip examples for page name home do hold. -/
theorem c3_keep_strip_divergence :
    resolveConds (String.toList "home")
        (String.toList "\x7bIf\x22home\x22Welcome!\x7d") =
      String.toList "Welcome!" ∧
    resolveConds (String.toList "home")
        (String.toList "\x7bIf\x22other\x22Secret\x7d") = [] ∧
    resolveConds (String.toList "a.c")
        (String.toList "\x7bIf\x22abc\x22X\x7d") = String.toList "X" ∧
    resolveCondsSpec (String.toList "a.c")
        (String.toList "\x7bIf\x22abc\x22X\x7d") = [] ∧
    String.toList "X" ≠ ([] : List Char) :=
  ⟨rfl, rfl, rfl, rfl, by decide⟩
